import Mathlib

/-!
Verification of the pgclone repository's natural-language specification
against its Go sources, via a shallow embedding in Lean 4.

Conventions used throughout this development:
* Go `int64` values are modelled as `Int`; where Go's overflow or clamping
  behaviour matters (`strconv.ParseInt` range errors, wrap-around in
  `parseSizeBytes`) it is modelled explicitly with `2 ^ 63` bounds.
* Go strings are Lean `String`s, manipulated through their `List Char`
  data so that all definitions evaluate inside the kernel.
* Byte-wise comparison of Go strings (`sort.Strings`) coincides with
  code-point lexicographic comparison because UTF-8 preserves code-point
  order; the embedding uses code-point order on `List Char`.
* I/O-performing code is modelled by pure functions over the sequence of
  values the I/O would yield (lines read, directory entries, outcomes of
  fallible operations), with `Option`/flags for failure.
-/

/-! ## Basic character and string helpers (ASCII, as used by the Go code) -/

/-- Whitespace recognised by `strings.Fields` / `strings.TrimSpace`
(restricted to the ASCII space characters, which is all that occurs in
rsync listings and PORT files). -/
def isSpaceC (c : Char) : Bool :=
  c = ' ' ∨ c = '\t' ∨ c = '\n' ∨ c = '\r' ∨ c = '\x0b' ∨ c = '\x0c'

/-- Drop leading and trailing whitespace from a character list
(`strings.TrimSpace`). -/
def trimChars (l : List Char) : List Char :=
  ((l.dropWhile isSpaceC).reverse.dropWhile isSpaceC).reverse

/-- `strings.TrimSpace` on a string. -/
def trimString (s : String) : String :=
  (trimChars s.data).asString

/-- `strings.Fields`: maximal runs of non-whitespace characters. -/
def fieldsOf (s : String) : List String :=
  ((s.data.splitOnP isSpaceC).filter (fun w => w ≠ [])).map List.asString

/-- Numeric value of a digit string (most significant digit first). -/
def digitsToNat (l : List Char) : Nat :=
  l.foldl (fun a c => a * 10 + (c.toNat - '0'.toNat)) 0

/-- Largest value representable in Go's `int64`. -/
def maxInt64 : Int := 2 ^ 63 - 1

/-! ## File-list parser (src/unnamed/part_012, `ParseList`) -/

/-- `FileInfo` represents a single file entry produced by
`rsync --list-only`: size in bytes and relative path. -/
structure FileInfo where
  Size : Int
  Path : String
deriving DecidableEq, Repr

/-- `cleanNumber` removes everything but decimal digits from a token
(the Go loop keeps bytes in `'0'..'9'`). -/
def cleanNumber (s : String) : String :=
  (s.data.filter Char.isDigit).asString

/-- Success of `strconv.Atoi` (64-bit `int`): optional sign, at least one
digit, all digits, value within `int64` range. -/
def atoiOk (s : String) : Bool :=
  match s.data with
  | [] => false
  | c :: rest =>
    let ds := if c = '+' ∨ c = '-' then rest else c :: rest
    ds ≠ [] ∧ ds.all Char.isDigit ∧
      digitsToNat ds ≤ (if c = '-' then 2 ^ 63 else 2 ^ 63 - 1)

/-- `strconv.ParseInt(s, 10, 64)` restricted to the digit-only strings
produced by `cleanNumber`: fails on an empty string or overflow. -/
def parseCleanInt (s : String) : Option Int :=
  if s.data ≠ [] ∧ s.data.all Char.isDigit ∧ (digitsToNat s.data : Int) ≤ maxInt64 then
    some (digitsToNat s.data)
  else none

/-- Per-line body of the `ParseList` loop, transcribed from the Go source:
only lines starting with `-` are considered; fewer than 5 fields is
malformed; the size index is 2 instead of 1 when `fields[1]` parses via
`Atoi`, the line has at least 6 fields and `cleanNumber(fields[2])`
parses; the path is the last field. -/
def parseLineGo (line : String) : Option FileInfo :=
  if line.data.headD ' ' ≠ '-' then none
  else
    let fs := fieldsOf line
    if fs.length < 5 then none
    else
      let idx :=
        if atoiOk (fs.getD 1 "") ∧ 6 ≤ fs.length ∧
            (parseCleanInt (cleanNumber (fs.getD 2 ""))).isSome then 2 else 1
      match parseCleanInt (cleanNumber (fs.getD idx "")) with
      | none => none
      | some v => some ⟨v, fs.getLastD ""⟩

/-- Accumulating loop of `ParseList` over the scanned lines. -/
def parseListLoop : List String → List FileInfo
  | [] => []
  | l :: ls =>
    match parseLineGo l with
    | some f => f :: parseListLoop ls
    | none => parseListLoop ls

/-- `ParseList`: the scanner yields `lines`; afterwards `sc.Err()` is
checked, so a reader error (`readErr`) discards the records and yields the
error (`none`). -/
def ParseList (lines : List String) (readErr : Bool) : Option (List FileInfo) :=
  if readErr then none else some (parseListLoop lines)

/-! Claim-side rendering of the parsing rule, following the wording of
spec §4.A sentence by sentence. The phrase "a hard-link count precedes
the size" is formalised by the detection the parser itself documents
(`fields[1]` parses as a plain integer, the line has ≥ 6 fields, and
`fields[2]` parses once thousand separators are stripped); the spec gives
no other decision procedure for it. -/

/-- Claim side: lines beginning with `-` denote regular files. -/
def specIsRegularFileLine (line : String) : Bool :=
  line.data.headD ' ' = '-'

/-- Claim side: a hard-link count precedes the size token. -/
def specLinkCountPrecedes (fs : List String) : Bool :=
  atoiOk (fs.getD 1 "") ∧ 6 ≤ fs.length ∧
    (parseCleanInt (cleanNumber (fs.getD 2 ""))).isSome

/-- Claim side: one parsed record per well-formed regular-file line;
`none` for ignored or malformed lines. -/
def specLineRecord (line : String) : Option FileInfo :=
  if ¬ specIsRegularFileLine line then none
  else
    let fs := fieldsOf line
    if fs.length < 5 then none
    else
      let sizeTok := if specLinkCountPrecedes fs then fs.getD 2 "" else fs.getD 1 ""
      match parseCleanInt (cleanNumber sizeTok) with
      | none => none
      | some v => some ⟨v, fs.getLastD ""⟩

/-! ## Stats-parser size conversions (src/unnamed/part_016, `toBytes` etc.) -/

/-- `cleanNum` removes every rune that is not a decimal digit
(the stats parser's twin of `cleanNumber`). -/
def cleanNum (s : String) : String :=
  (s.data.filter Char.isDigit).asString

/-- `strconv.ParseInt(s, 10, 64)` with the error dropped, as `toInt` does:
syntax errors yield 0, positive overflow is clamped to `maxInt64`
(Go returns the max-magnitude value together with the range error). The
argument is always the digit-only output of `cleanNum`. -/
def goParseInt64 (s : String) : Int :=
  if s.data = [] then 0
  else if s.data.all Char.isDigit then min (digitsToNat s.data : Int) maxInt64
  else 0

/-- `toInt`: clean the token, parse, ignore the error. -/
def toInt (s : String) : Int :=
  goParseInt64 (cleanNum s)

/-- The unit-detection scan of `toBytes`: any character that is not a
digit, `'.'`, `','` or `' '` counts as a unit suffix. -/
def hasUnitB (s : String) : Bool :=
  s.data.any (fun c => ¬ (c.isDigit ∨ c = '.' ∨ c = ',' ∨ c = ' '))

/-- `strconv.ParseFloat` on the numeric part cut out by `parseHumanSize`
(digits and dots only by construction): valid iff it has at least one
digit and at most one dot. The decimal value is kept exactly as a
mantissa/scale pair `(m, k)` denoting `m / 10 ^ k`. Exact (error-free)
arithmetic stands in for `float64`; it agrees with Go wherever the value
is exactly representable, which covers every input exercised by the
claims. -/
def goParseFloat (s : String) : Option (Nat × Nat) :=
  let l := s.data
  if l ≠ [] ∧ (l.filter (fun c => c = '.')).length ≤ 1 ∧
      (l.filter Char.isDigit) ≠ [] ∧ l.all (fun c => c.isDigit ∨ c = '.') then
    let ip := l.takeWhile (fun c => c ≠ '.')
    let fp := (l.dropWhile (fun c => c ≠ '.')).drop 1
    some (digitsToNat (ip ++ fp), fp.length)
  else none

/-- `parseHumanSize`: strip spaces and commas, split at the first
character that is neither digit nor dot, uppercase the unit, pick the
base-1024 multiplier by unit first letter, truncate the product to an
integer. `int64(f * multiplier)` on the non-negative value `m / 10 ^ k`
times `2 ^ e` is the floor of the exact product, i.e. the natural
division `m * 2 ^ e / 10 ^ k`. -/
def parseHumanSize (s : String) : Int :=
  let l := s.data.filter (fun c => c ≠ ' ' ∧ c ≠ ',')
  let numPart := l.takeWhile (fun c => c.isDigit ∨ c = '.')
  let unitPart := (l.dropWhile (fun c => c.isDigit ∨ c = '.')).map Char.toUpper
  match goParseFloat numPart.asString with
  | none => 0
  | some mk =>
    let multiplier : Nat :=
      if unitPart.headD ' ' = 'K' then 2 ^ 10
      else if unitPart.headD ' ' = 'M' then 2 ^ 20
      else if unitPart.headD ' ' = 'G' then 2 ^ 30
      else if unitPart.headD ' ' = 'T' then 2 ^ 40
      else if unitPart.headD ' ' = 'P' then 2 ^ 50
      else 1
    (mk.1 * multiplier / 10 ^ mk.2 : Nat)

/-- `toBytes`: empty string yields 0; otherwise trim, then route to
`parseHumanSize` when a unit suffix is present and to `toInt` otherwise. -/
def toBytes (s : String) : Int :=
  if s = "" then 0
  else if hasUnitB (trimString s) then parseHumanSize (trimString s)
  else toInt (trimString s)

/-! ## Worker distributor (src/unnamed/part_015, hybrid `Distribute`) -/

/-- The 1 GiB threshold above which files are placed by best fit. -/
def LARGE_THRESHOLD : Int := 1024 * 1024 * 1024

/-- The scan for the worker with the smallest total: `minWorker := 0;
for i := 1; ...; i++ { if totals[i] < totals[minWorker] ... }`, carried
out structurally over the tail of the list while tracking the best value
and index. Strict comparison keeps the lowest index on ties. -/
def minScan : List Int → Int → Nat → Nat → Nat
  | [], _, best, _ => best
  | t :: ts, bv, best, i => if t < bv then minScan ts t i (i + 1) else minScan ts bv best (i + 1)

/-- Index of the worker with the currently smallest byte total. -/
def minWorkerIdx (totals : List Int) : Nat :=
  match totals with
  | [] => 0
  | t :: ts => minScan ts t 0 1

/-- Loop state of `Distribute`: buckets, running byte totals, and the
round-robin cursor. -/
structure DistAcc where
  out : List (List FileInfo)
  totals : List Int
  cur : Nat
deriving Repr

/-- One iteration of the `Distribute` loop: best fit for records above
the threshold, round-robin (advancing `cur` modulo the worker count)
otherwise. -/
def distStep (N : Nat) (acc : DistAcc) (f : FileInfo) : DistAcc :=
  if LARGE_THRESHOLD < f.Size then
    let m := minWorkerIdx acc.totals
    { acc with
        out := acc.out.set m (acc.out.getD m [] ++ [f])
        totals := acc.totals.set m (acc.totals.getD m 0 + f.Size) }
  else
    { out := acc.out.set acc.cur (acc.out.getD acc.cur [] ++ [f])
      totals := acc.totals.set acc.cur (acc.totals.getD acc.cur 0 + f.Size)
      cur := (acc.cur + 1) % N }

/-- The descending-by-size order used by
`sort.Slice(files, func(i, j) { return files[i].Size > files[j].Size })`. -/
def sizeGE (a b : FileInfo) : Prop := b.Size ≤ a.Size

instance : DecidableRel sizeGE := fun a b => inferInstanceAs (Decidable (b.Size ≤ a.Size))

instance : IsTotal FileInfo sizeGE := ⟨fun a b => le_total b.Size a.Size⟩

instance : IsTrans FileInfo sizeGE := ⟨fun _ _ _ h h' => le_trans h' h⟩

/-- `sort.Slice` sorts descending by size; the permutation it picks among
equal sizes is unspecified, so the embedding uses insertion sort. Every
property proved below depends only on sortedness and on being a
permutation. -/
def sortDesc (files : List FileInfo) : List FileInfo :=
  files.insertionSort sizeGE

/-- `Distribute` splits files across `workers` buckets: `nil` for a
non-positive worker count, empty buckets for an empty file list, and the
hybrid best-fit/round-robin loop otherwise. -/
def Distribute (files : List FileInfo) (workers : Int) : List (List FileInfo) :=
  if workers ≤ 0 then []
  else
    let N := workers.toNat
    if files.isEmpty then List.replicate N []
    else ((sortDesc files).foldl (distStep N) ⟨List.replicate N [], List.replicate N 0, 0⟩).out

/-- Byte total of one bucket. -/
def bucketTotal (b : List FileInfo) : Int :=
  (b.map FileInfo.Size).sum

/-- Largest file size appearing in a list (0 when empty), as used by the
spec's imbalance bound. -/
def maxSize (files : List FileInfo) : Int :=
  files.foldr (fun f m => max f.Size m) 0

/-! ## Transfer statistics (src/unnamed/part_016 `Stats`, bootstrap.go `Add`) -/

/-- Aggregated rsync `--stats` record. `float64 FileListGenSeconds` is
modelled as `ℚ`; every other field is a Go `int64`. -/
structure Stats where
  NumFiles : Int := 0
  CreatedFiles : Int := 0
  CreatedReg : Int := 0
  CreatedDir : Int := 0
  DeletedFiles : Int := 0
  DeletedReg : Int := 0
  DeletedDir : Int := 0
  RegTransferred : Int := 0
  TotalFileSize : Int := 0
  TotalTransferredSize : Int := 0
  LiteralData : Int := 0
  MatchedData : Int := 0
  RegFiles : Int := 0
  DirFiles : Int := 0
  LinkFiles : Int := 0
  FileListSize : Int := 0
  FileListGenSeconds : ℚ := 0
  BytesSent : Int := 0
  BytesReceived : Int := 0
deriving DecidableEq, Repr

/-- The zero value `var total Stats`. -/
def Stats.zero : Stats := {}

/-- `Stats.Add`: element-wise sum, except `FileListGenSeconds`, which
takes the maximum (`maxFloat`). -/
def Stats.Add (s o : Stats) : Stats where
  NumFiles := s.NumFiles + o.NumFiles
  CreatedFiles := s.CreatedFiles + o.CreatedFiles
  DeletedFiles := s.DeletedFiles + o.DeletedFiles
  RegTransferred := s.RegTransferred + o.RegTransferred
  TotalFileSize := s.TotalFileSize + o.TotalFileSize
  TotalTransferredSize := s.TotalTransferredSize + o.TotalTransferredSize
  LiteralData := s.LiteralData + o.LiteralData
  MatchedData := s.MatchedData + o.MatchedData
  RegFiles := s.RegFiles + o.RegFiles
  DirFiles := s.DirFiles + o.DirFiles
  LinkFiles := s.LinkFiles + o.LinkFiles
  FileListSize := s.FileListSize + o.FileListSize
  FileListGenSeconds := max s.FileListGenSeconds o.FileListGenSeconds
  BytesSent := s.BytesSent + o.BytesSent
  BytesReceived := s.BytesReceived + o.BytesReceived
  CreatedReg := s.CreatedReg + o.CreatedReg
  CreatedDir := s.CreatedDir + o.CreatedDir
  DeletedReg := s.DeletedReg + o.DeletedReg
  DeletedDir := s.DeletedDir + o.DeletedDir

/-! ## Parallel engine: progress counter and final aggregation
(src/internal/rsync/parallel.go) -/

/-- Two's-complement interpretation of a `Nat` as a Go `int64`
(`n*10 + digit` accumulates with wrap-around). -/
def wrap64 (n : Nat) : Int :=
  let m : Nat := n % 2 ^ 64
  if m < 2 ^ 63 then (m : Int) else (m : Int) - 2 ^ 64

/-- `parseSizeBytes`: value of the leading decimal digits of a line;
`none` when the line does not start with a digit. -/
def parseSizeBytes (line : String) : Option Int :=
  let ds := line.data.takeWhile Char.isDigit
  if ds = [] then none else some (wrap64 (digitsToNat ds))

/-- Terminal value of the shared `progressBytes` counter: the progress
goroutine adds each parsed positive per-line size, but only in plain mode
(`showPlain`, i.e. no bar and `progressMode == "plain"`); with a bar the
parsed sizes feed the bar's `pending` instead, and with no renderer the
parse is skipped; in both cases `progressBytes` stays 0. -/
def progressBytesTerminal (showBar : Bool) (progressMode : String)
    (stdoutLines : List String) : Int :=
  if showBar = false ∧ progressMode = "plain" then
    stdoutLines.foldl (fun acc l =>
      match parseSizeBytes l with
      | some n => if 0 < n then acc + n else acc
      | none => acc) 0
  else 0

/-- Final aggregation of `RunParallel` on the success path: fold the
worker stats with `Stats.Add`, then override `BytesReceived` with the
progress counter — but only when that counter is positive. -/
def finalAggregate (workerStats : List Stats) (progressBytes : Int) : Stats :=
  let total := workerStats.foldl Stats.Add Stats.zero
  if 0 < progressBytes then { total with BytesReceived := progressBytes } else total

/-- The aggregate a successful `RunParallel` returns, as a function of
the progress configuration, the concatenated worker stdout lines and the
collected per-worker stats. -/
def RunParallelAggregate (showBar : Bool) (progressMode : String)
    (stdoutLines : List String) (workerStats : List Stats) : Stats :=
  finalAggregate workerStats (progressBytesTerminal showBar progressMode stdoutLines)

/-- Claim side: the spec's authoritative ProgressState counter — the sum
of the per-line sizes observed on worker stdout, independent of the
progress mode. -/
def specAuthoritativeCounter (stdoutLines : List String) : Int :=
  stdoutLines.foldl (fun acc l =>
    match parseSizeBytes l with
    | some n => if 0 < n then acc + n else acc
    | none => acc) 0

/-- Effective worker count of `RunParallel`: a non-positive request
becomes `max(runtime.NumCPU()/2, 1)`. -/
def effectiveWorkers (requested : Int) (numCPU : Nat) : Nat :=
  if requested ≤ 0 then max (numCPU / 2) 1 else requested.toNat

/-! ## Clone orchestrator: pipeline and teardown
(src/internal/clone/orchestrator.go `Run` / `Close`) -/

/-- Externally visible operations of one clone run that matter to the
backup-protocol claim. -/
inductive CloneAction where
  | backupStart
  | backupStop
  | recvStop
  | daemonStop
  | sshClose
  | removeTmp
deriving DecidableEq, Repr

/-- Resources recorded on the `Orchestrator` struct that `Close`
inspects (`o.recv`, `o.rsyncDaemon`, `o.sshClient`, `o.tmpDir`). The
Postgres connection `o.conn` is also stored but `Close` never touches
it. -/
structure OrcState where
  recvSet : Bool := false
  daemonSet : Bool := false
  sshSet : Bool := false
  tmpSet : Bool := false
deriving DecidableEq, Repr

/-- Outcomes of every fallible operation of the pipeline, in program
order; `true` means the operation succeeds. `tempWALDirSet` mirrors a
non-empty `cfg.TempWALDir`, `keepRunTmp` mirrors `cfg.KeepRunTmp`. -/
structure RunEnv where
  tempWALDirSet : Bool := false
  keepRunTmp : Bool := false
  mkdtempOk : Bool := true
  recvStartOk : Bool := true
  connectOk : Bool := true
  waitReplOk : Bool := true
  tbsQueryOk : Bool := true
  sshDialOk : Bool := true
  startRemoteOk : Bool := true
  backupStartOk : Bool := true
  mkdirReplicaOk : Bool := true
  writeSecretOk : Bool := true
  initialRsyncOk : Bool := true
  listBaseOk : Bool := true
  mkdirBaseOk : Bool := true
  runBaseOk : Bool := true
  tablespaceSweepsOk : Bool := true
  backupStopOk : Bool := true
  writeLabelOk : Bool := true
  fetchCtrlOk : Bool := true
  writeCtrlOk : Bool := true
  walQueryOk : Bool := true
  walWaitOk : Bool := true
  walMoveOk : Bool := true
  finalChecksOk : Bool := true
deriving DecidableEq, Repr

/-- `Close`: stop the receiver, stop the daemon, close SSH, remove the
temp dir (kept with `--keep-run-tmp`), each only when the corresponding
resource is set. It issues no Postgres command at all. -/
def closeActions (st : OrcState) (keepRunTmp : Bool) : List CloneAction :=
  (if st.recvSet then [CloneAction.recvStop] else []) ++
  (if st.daemonSet then [CloneAction.daemonStop] else []) ++
  (if st.sshSet then [CloneAction.sshClose] else []) ++
  (if st.tmpSet ∧ ¬ keepRunTmp then [CloneAction.removeTmp] else [])

/-- `stepWalAndRsyncd`: temp-dir creation, receiver start (assigned to
`o.recv` before `Start` is called), Postgres connect (an explicit
`recv.Stop()` on its failure path), replication wait, tablespace query,
SSH dial, remote daemon bootstrap (`o.sshClient` and `o.rsyncDaemon` are
assigned only after `StartRemote` succeeds). Returns the actions emitted,
the resource state and whether the step succeeded. -/
def stepWalAndRsyncd (e : RunEnv) : List CloneAction × OrcState × Bool :=
  if ¬ e.tempWALDirSet ∧ ¬ e.mkdtempOk then ([], {}, false)
  else
    let st : OrcState := { tmpSet := ¬ e.tempWALDirSet, recvSet := true }
    if ¬ e.recvStartOk then ([], st, false)
    else if ¬ e.connectOk then ([CloneAction.recvStop], st, false)
    else if ¬ e.waitReplOk then ([], st, false)
    else if ¬ e.tbsQueryOk then ([], st, false)
    else if ¬ e.sshDialOk then ([], st, false)
    else if ¬ e.startRemoteOk then ([], st, false)
    else ([], { st with sshSet := true, daemonSet := true }, true)

/-- `stepBackupStart`: the `pg_backup_start` query is attempted first;
the step succeeds when it and every transfer substep (replica mkdir,
secret write, initial pgdata rsync, base listing and parallel sweep,
tablespace sweeps) succeed. -/
def stepBackupStartM (e : RunEnv) : List CloneAction × Bool :=
  ([CloneAction.backupStart],
   e.backupStartOk ∧ e.mkdirReplicaOk ∧ e.writeSecretOk ∧ e.initialRsyncOk ∧
     e.listBaseOk ∧ e.mkdirBaseOk ∧ e.runBaseOk ∧ e.tablespaceSweepsOk)

/-- `stepBackupStop`: the `pg_backup_stop` query is attempted first; the
step succeeds when it, the label/map writes and the `pg_control` fetch
and write succeed. -/
def stepBackupStopM (e : RunEnv) : List CloneAction × Bool :=
  ([CloneAction.backupStop],
   e.backupStopOk ∧ e.writeLabelOk ∧ e.fetchCtrlOk ∧ e.writeCtrlOk)

/-- `stepWalFinalize`: WAL file-name query, wait for the segment, then
`o.recv.Stop()` (emitted as an action; its own error is only logged),
then the moves and the `.partial` rename. -/
def stepWalFinalizeM (e : RunEnv) : List CloneAction × Bool :=
  if ¬ e.walQueryOk then ([], false)
  else if ¬ e.walWaitOk then ([], false)
  else ([CloneAction.recvStop], e.walMoveOk)

/-- `Run`: the five pipeline steps in order, each aborting the pipeline
on failure, with `Close` deferred in every case. Yields the full ordered
action trace and overall success. -/
def orchestratorRun (e : RunEnv) : List CloneAction × Bool :=
  let p1 := stepWalAndRsyncd e
  let st := p1.2.1
  if ¬ p1.2.2 then (p1.1 ++ closeActions st e.keepRunTmp, false)
  else
    let p2 := stepBackupStartM e
    if ¬ p2.2 then (p1.1 ++ p2.1 ++ closeActions st e.keepRunTmp, false)
    else
      let p3 := stepBackupStopM e
      if ¬ p3.2 then (p1.1 ++ p2.1 ++ p3.1 ++ closeActions st e.keepRunTmp, false)
      else
        let p4 := stepWalFinalizeM e
        if ¬ p4.2 then
          (p1.1 ++ p2.1 ++ p3.1 ++ p4.1 ++ closeActions st e.keepRunTmp, false)
        else
          (p1.1 ++ p2.1 ++ p3.1 ++ p4.1 ++ closeActions st e.keepRunTmp, e.finalChecksOk)

/-- Phase-1 success (everything before `pg_backup_start`). -/
def phase1Ok (e : RunEnv) : Prop :=
  (e.tempWALDirSet ∨ e.mkdtempOk) ∧ e.recvStartOk ∧ e.connectOk ∧ e.waitReplOk ∧
    e.tbsQueryOk ∧ e.sshDialOk ∧ e.startRemoteOk

/-- Success of `pg_backup_start` and of the whole transfer phase. -/
def phase2Ok (e : RunEnv) : Prop :=
  e.backupStartOk ∧ e.mkdirReplicaOk ∧ e.writeSecretOk ∧ e.initialRsyncOk ∧
    e.listBaseOk ∧ e.mkdirBaseOk ∧ e.runBaseOk ∧ e.tablespaceSweepsOk

/-! ## WAL finalize (src/internal/clone/orchestrator.go `stepWalFinalize`) -/

/-- Byte/code-point lexicographic `≤` on character lists, the order under
which `sort.Strings` sorts (UTF-8 byte order coincides with code-point
order). -/
def lexLeC : List Char → List Char → Bool
  | [], _ => true
  | _ :: _, [] => false
  | a :: as, b :: bs =>
    if a.toNat < b.toNat then true else if b.toNat < a.toNat then false else lexLeC as bs

/-- Go byte-wise string `≤`. -/
def strLeB (a b : String) : Bool := lexLeC a.data b.data

/-- Suffix test `strings.HasSuffix(name, ".partial")`. -/
def isPartialName (s : String) : Bool :=
  s.data.drop (s.data.length - 8) = ".partial".data ∧ 8 ≤ s.data.length

/-- `strings.TrimSuffix(name, ".partial")`. -/
def trimPartialName (s : String) : String :=
  if isPartialName s then (s.data.take (s.data.length - 8)).asString else s

/-- Contents of the replica WAL dir after the move loop: every entry of
the WAL temp dir (`src`) lands in the destination, overwriting same-named
entries. -/
def movedEntries (src dst : List String) : List String :=
  dst.filter (fun n => ¬ src.contains n) ++ src

/-- The directory contents produced by `stepWalFinalize` after the
receiver has been stopped: every entry of the WAL temp dir (`src`) is
moved into the replica WAL dir (`dst`), overwriting same-named entries —
the rename-or-copy+remove distinction does not affect the resulting
contents — and then, among the `*.partial` names found by globbing the
destination, the lexicographically greatest (glob output sorted with
`sort.Strings`, last element taken) is renamed with its suffix stripped,
overwriting a same-named entry if present. Directories are name lists;
moving is modelled set-wise. -/
def renameLastPartialEntry (entries : List String) : List String :=
  match ((entries.filter isPartialName).insertionSort (fun a b => strLeB a b)).getLast? with
  | none => entries
  | some last =>
    entries.filter (fun n => n ≠ last ∧ n ≠ trimPartialName last) ++ [trimPartialName last]

def walFinalizeDir (src dst : List String) : List String :=
  renameLastPartialEntry (movedEntries src dst)

instance : DecidableRel (fun a b : String => strLeB a b = true) :=
  fun a b => inferInstanceAs (Decidable (strLeB a b = true))

/-- Claim side: the same move, but with the rename applied to the
lexicographically greatest `.partial` name among the *moved* files only
(the WAL temp dir's entries), as the claim words it. -/
def specWalFinalizeDir (src dst : List String) : List String :=
  match ((src.filter isPartialName).insertionSort (fun a b => strLeB a b)).getLast? with
  | none => movedEntries src dst
  | some last =>
    (movedEntries src dst).filter (fun n => n ≠ last ∧ n ≠ trimPartialName last) ++
      [trimPartialName last]

/-! ## Remote daemon bootstrap (src/internal/rsync/bootstrap.go
`StartRemote`) -/

/-- One poll of `$RD/PORT`: trim the content; accept iff it matches
`^\d+$` and `fmt.Sscanf(s, "%d", &port)` succeeds (value within `int64`)
with `port > 0`. -/
def portOfContent (data : String) : Option Nat :=
  if (trimString data).data ≠ [] ∧ (trimString data).data.all Char.isDigit ∧
      (digitsToNat (trimString data).data : Int) ≤ maxInt64 ∧
      0 < digitsToNat (trimString data).data then
    some (digitsToNat (trimString data).data)
  else none

/-- The poll loop over the successive contents of `$RD/PORT` observed
before the deadline: the first accepted read wins; reaching the end of
the observations is the timeout. -/
def pollPort : List String → Option Nat
  | [] => none
  | d :: ds =>
    match portOfContent d with
    | some p => some p
    | none => pollPort ds

/-- Claim side: the content is a non-empty numeric string. -/
def specNonEmptyNumeric (data : String) : Bool :=
  (trimString data).data ≠ [] ∧ (trimString data).data.all Char.isDigit

/-- `opts.Timeout == 0` defaults to 30 seconds. -/
def resolveTimeoutSec (t : Nat) : Nat := if t = 0 then 30 else t

/-- Lower-case hex digits, as `hex.EncodeToString` emits. -/
def hexDigitChar (n : Nat) : Char := "0123456789abcdef".data.getD n '0'

/-- `hex.EncodeToString`: two lower-case hex digits per byte. -/
def hexEncodeToString (bytes : List Nat) : String :=
  (bytes.flatMap (fun b => [hexDigitChar (b / 16 % 16), hexDigitChar (b % 16)])).asString

/-- The daemon handle `StartRemote` returns. -/
structure DaemonHandle where
  Port : Nat
  Secret : String
deriving DecidableEq, Repr

/-- `StartRemote` after the remote script ran: the secret is the hex
encoding of 8 random bytes; the port is polled from `$RD/PORT`; a timeout
(no accepted read) is an error and yields no handle. -/
def startRemoteModel (secretBytes : List Nat) (portReads : List String) :
    Option DaemonHandle :=
  match pollPort portReads with
  | none => none
  | some p => some ⟨p, hexEncodeToString secretBytes⟩

/-! ## Index-filtered sums (analysis device for the round-robin case) -/

/-- Sum of the elements of `l` whose position satisfies `P`; used to
describe which sizes a round-robin bucket receives. -/
def sumIdx : List Int → (Nat → Bool) → Int
  | [], _ => 0
  | a :: l, P => (if P 0 then a else 0) + sumIdx l (fun i => P (i + 1))

/-! # Helper lemmas -/

theorem dropWhile_eq_self_of {p : Char → Bool} {l : List Char}
    (h : ∀ c ∈ l, p c = false) : l.dropWhile p = l := by
  cases l with
  | nil => rfl
  | cons a as => simp [List.dropWhile_cons, h a (by simp)]

theorem isDigit_not_space {c : Char} (h : c.isDigit = true) : isSpaceC c = false := by
  rcases hc : isSpaceC c with _ | _
  · rfl
  · exfalso
    have hor : c = ' ' ∨ c = '\t' ∨ c = '\n' ∨ c = '\r' ∨ c = '\x0b' ∨ c = '\x0c' := by
      simpa [isSpaceC] using hc
    rcases hor with h' | h' | h' | h' | h' | h' <;> subst h' <;> simp at h

theorem trimChars_eq_self {l : List Char} (h : ∀ c ∈ l, isSpaceC c = false) :
    trimChars l = l := by
  unfold trimChars
  rw [dropWhile_eq_self_of h, dropWhile_eq_self_of (by simpa using h), List.reverse_reverse]

theorem asString_data (s : String) : s.data.asString = s :=
  String.asString_toList s

theorem data_asString (l : List Char) : l.asString.data = l :=
  List.toList_asString l

theorem trimString_eq_self {s : String} (h : ∀ c ∈ s.data, isSpaceC c = false) :
    trimString s = s := by
  unfold trimString
  rw [trimChars_eq_self h, asString_data]

theorem hasUnitB_false_of_digits {s : String} (h : ∀ c ∈ s.data, c.isDigit = true) :
    hasUnitB s = false := by
  unfold hasUnitB
  simp only [List.any_eq_false]
  intro c hc
  simp [h c hc]

/-- `toBytes` on an all-digit token evaluates through the unitless path. -/
theorem toBytes_digits {s : String} (h1 : s.data ≠ [])
    (h2 : ∀ c ∈ s.data, c.isDigit = true) :
    toBytes s = min (digitsToNat s.data : Int) maxInt64 := by
  have hne : s ≠ "" := by
    intro hs
    subst hs
    exact h1 rfl
  have htrim : trimString s = s :=
    trimString_eq_self (fun c hc => isDigit_not_space (h2 c hc))
  have hclean : cleanNum s = s := by
    unfold cleanNum
    rw [List.filter_eq_self.mpr h2, asString_data]
  unfold toBytes
  rw [if_neg hne, htrim, hasUnitB_false_of_digits h2]
  simp only [Bool.false_eq_true, if_false]
  unfold toInt
  rw [hclean]
  unfold goParseInt64
  rw [if_neg h1, if_pos (List.all_eq_true.mpr h2)]

/-! # Claim C9 — totality of `Distribute` at the public interface -/

/-- C9: for every file list and non-positive worker count, `Distribute`
returns `nil` without failing, and for a positive worker count with an
empty file list it returns exactly that many empty buckets. -/
theorem claim9_distribute_total :
    (∀ (files : List FileInfo) (w : Int), w ≤ 0 → Distribute files w = []) ∧
    (∀ w : Int, 1 ≤ w → Distribute [] w = List.replicate w.toNat []) := by
  constructor
  · intro files w hw
    simp [Distribute, hw]
  · intro w hw
    have : ¬ w ≤ 0 := by omega
    simp [Distribute, this]

/-- C9 witness: `Distribute` at worker counts `-1` and `3`. -/
theorem claim9_distribute_total_witness :
    Distribute [⟨5, "x"⟩] (-1) = [] ∧ Distribute [] 3 = [[], [], []] := by
  refine ⟨claim9_distribute_total.1 [⟨5, "x"⟩] (-1) (by decide), ?_⟩
  have h := claim9_distribute_total.2 3 (by decide)
  simpa using h

/-! # Claim C5 — default worker count -/

/-- C5 counterexample: with 4 CPUs and a requested count of 0, the engine
uses `max(numCPU/2, 1) = 2` workers, not `numCPU = 4` as the claim
states. -/
theorem claim5_counterexample :
    effectiveWorkers 0 4 = 2 ∧ max 4 1 = 4 ∧ (2 : Nat) ≠ 4 := by
  decide

/-- C5 amended: for every requested worker count ≤ 0, the number of
workers actually used equals *half* the number of CPU cores (integer
division), with a minimum of 1. -/
theorem claim5_worker_default (r : Int) (h : r ≤ 0) (numCPU : Nat) :
    effectiveWorkers r numCPU = max (numCPU / 2) 1 := by
  simp [effectiveWorkers, h]

/-- C5 witness: requested `-3` with 8 CPUs yields 4 workers. -/
theorem claim5_worker_default_witness : effectiveWorkers (-3) 8 = 4 := by
  rw [claim5_worker_default (-3) (by decide) 8]
  decide

/-! # Claim C6 — `toBytes` on raw integers and human-readable suffixes -/

/-- C6 counterexample: the raw decimal token for `n = 2 ^ 63` is clamped
by `strconv.ParseInt`'s range error to `2 ^ 63 - 1`, so `toBytes` does
not return every non-negative integer exactly. -/
theorem claim6_counterexample :
    digitsToNat "9223372036854775808".data = 2 ^ 63 ∧
    toBytes "9223372036854775808" = 2 ^ 63 - 1 ∧
    toBytes "9223372036854775808" ≠ 2 ^ 63 := by
  refine ⟨by decide, by decide, by decide⟩

/-- C6 amended: for every non-negative integer `n < 2 ^ 63` rendered as a
raw decimal token, `toBytes` returns exactly `n`; `toBytes "1K" = 1024`
and `toBytes "1.5 MiB" = 1572864`. -/
theorem claim6_tobytes :
    (∀ s : String, s.data ≠ [] → (∀ c ∈ s.data, c.isDigit = true) →
      (digitsToNat s.data : Int) ≤ maxInt64 → toBytes s = digitsToNat s.data) ∧
    toBytes "1K" = 1024 ∧ toBytes "1.5 MiB" = 1572864 := by
  refine ⟨?_, by decide, by decide⟩
  intro s h1 h2 h3
  rw [toBytes_digits h1 h2, min_eq_left h3]

/-- C6 witness: the raw token `"1024"`. -/
theorem claim6_tobytes_witness : toBytes "1024" = 1024 := by
  have h := claim6_tobytes.1 "1024" (by decide) (by decide) (by decide)
  simpa using h

/-! # Claim C10 — totality of `toBytes`, stripping before parsing -/

/-- C10: `toBytes` is total (every branch returns a value; the model is a
total function). Without a unit suffix every non-digit character is
stripped by `cleanNum` before integer parsing, so `"1.5"` yields 15; a
token whose numeric part cannot be parsed yields 0, in both the unitless
branch (no digits at all) and the unit branch (`ParseFloat` failure). -/
theorem claim10_tobytes_total :
    (∀ s : String, s ≠ "" → hasUnitB (trimString s) = false →
      toBytes s = goParseInt64 (cleanNum (trimString s))) ∧
    toBytes "1.5" = 15 ∧
    toBytes "" = 0 ∧
    (∀ s : String, s ≠ "" → hasUnitB (trimString s) = false →
      cleanNum (trimString s) = "" → toBytes s = 0) ∧
    (∀ s : String, s ≠ "" → hasUnitB (trimString s) = true →
      goParseFloat ((((trimString s).data.filter (fun c => c ≠ ' ' ∧ c ≠ ','))).takeWhile
        (fun c => c.isDigit ∨ c = '.')).asString = none →
      toBytes s = 0) := by
  refine ⟨?_, by decide, by decide, ?_, ?_⟩
  · intro s hs hu
    unfold toBytes toInt
    rw [if_neg hs, hu]
    simp
  · intro s hs hu hc
    unfold toBytes toInt
    rw [if_neg hs, hu]
    simp only [Bool.false_eq_true, if_false]
    rw [hc]
    decide
  · intro s hs hu hf
    unfold toBytes
    rw [if_neg hs, hu]
    simp only [if_true, parseHumanSize, hf]

/-- C10 witness: `".."` has no unit and no digits and yields 0; `"x."`
carries a unit with an unparseable numeric part and yields 0. -/
theorem claim10_tobytes_total_witness :
    toBytes ".." = 0 ∧ toBytes "x." = 0 ∧ toBytes "12,34" = 1234 := by
  refine ⟨claim10_tobytes_total.2.2.2.1 ".." (by decide) (by decide) (by decide), ?_, ?_⟩
  · exact claim10_tobytes_total.2.2.2.2 "x." (by decide) (by decide) (by decide)
  · have h := claim10_tobytes_total.1 "12,34" (by decide) (by decide)
    simpa using h

/-! # Lexicographic-order helper lemmas -/

theorem lexLeC_refl (l : List Char) : lexLeC l l = true := by
  induction l with
  | nil => rfl
  | cons a as ih => simp [lexLeC, ih]

theorem lexLeC_total (a b : List Char) : lexLeC a b = true ∨ lexLeC b a = true := by
  induction a generalizing b with
  | nil => left; rfl
  | cons x xs ih =>
    cases b with
    | nil => right; rfl
    | cons y ys =>
      by_cases hxy : x.toNat < y.toNat
      · left
        simp [lexLeC, hxy]
      · by_cases hyx : y.toNat < x.toNat
        · right
          simp [lexLeC, hyx]
        · rcases ih ys with h | h
          · left
            simpa [lexLeC, hxy, hyx] using h
          · right
            simpa [lexLeC, hxy, hyx] using h

theorem lexLeC_trans {a b c : List Char} (h1 : lexLeC a b = true)
    (h2 : lexLeC b c = true) : lexLeC a c = true := by
  induction a generalizing b c with
  | nil => rfl
  | cons x xs ih =>
    cases b with
    | nil => simp [lexLeC] at h1
    | cons y ys =>
      cases c with
      | nil => simp [lexLeC] at h2
      | cons z zs =>
        simp only [lexLeC] at h1 h2 ⊢
        by_cases hxy : x.toNat < y.toNat
        · by_cases hyz : y.toNat < z.toNat
          · simp [show x.toNat < z.toNat by omega]
          · by_cases hzy : z.toNat < y.toNat
            · simp [hyz, hzy] at h2
            · have hxz : x.toNat < z.toNat := by omega
              simp [hxz]
        · by_cases hyx : y.toNat < x.toNat
          · simp [hxy, hyx] at h1
          · by_cases hyz : y.toNat < z.toNat
            · have hxz : x.toNat < z.toNat := by omega
              simp [hxz]
            · by_cases hzy : z.toNat < y.toNat
              · simp [hyz, hzy] at h2
              · have hxz : ¬ x.toNat < z.toNat := by omega
                have hzx : ¬ z.toNat < x.toNat := by omega
                simp only [hxz, hzx, if_false]
                simp only [hxy, hyx, if_false] at h1
                simp only [hyz, hzy, if_false] at h2
                exact ih h1 h2

instance : IsTotal String (fun a b => strLeB a b = true) :=
  ⟨fun a b => lexLeC_total a.data b.data⟩

instance : IsTrans String (fun a b => strLeB a b = true) :=
  ⟨fun _ _ _ h1 h2 => lexLeC_trans h1 h2⟩

theorem strLeB_refl (s : String) : strLeB s s = true := lexLeC_refl s.data

/-- In a `Pairwise R` list, every member is the last element or relates
to it. -/
theorem pairwise_rel_getLast {α : Type} {R : α → α → Prop} {l : List α} {x y : α}
    (hp : l.Pairwise R) (hx : x ∈ l) (hy : l.getLast? = some y) : x = y ∨ R x y := by
  induction l with
  | nil => cases hx
  | cons a as ih =>
    rcases List.pairwise_cons.mp hp with ⟨ha, hp'⟩
    cases as with
    | nil =>
      simp at hy hx
      subst hy
      left
      exact hx
    | cons b bs =>
      have hy' : (b :: bs).getLast? = some y := by
        simpa [List.getLast?_cons_cons] using hy
      rcases List.mem_cons.mp hx with hxa | hx'
      · right
        subst hxa
        exact ha y (List.mem_of_mem_getLast? (by simp [hy']))
      · exact ih hp' hx' hy'

/-! # Claim C8 — remote daemon bootstrap port poll -/

/-- C8 counterexample: the poll accepts only contents parsing to a
*positive* integer. A PORT file holding `"0"` is a non-empty numeric
string, yet the loop never stops on it and times out, contradicting the
claim's stopping condition. -/
theorem claim8_counterexample :
    specNonEmptyNumeric "0" = true ∧ pollPort ["0"] = none ∧
    pollPort (List.replicate 150 "0") = none := by
  refine ⟨by decide, by decide, ?_⟩
  have h : ∀ n, pollPort (List.replicate n "0") = none := by
    intro n
    induction n with
    | zero => rfl
    | succ k ih => simpa [pollPort, List.replicate_succ, portOfContent] using ih
  exact h 150

/-- C8 amended: the bootstrap polls the remote PORT file until its
content is a non-empty numeric string denoting a *positive* integer
representable in an `int64` (or until the observations are exhausted —
the 30 s default timeout, `resolveTimeoutSec 0 = 30`). On timeout it
yields an error and no handle; on success the handle carries the value of
the first accepted read and a shared secret of 16 hexadecimal characters
(2 per random byte). -/
theorem claim8_bootstrap :
    (∀ (bytes : List Nat) (reads : List String), pollPort reads = none →
        startRemoteModel bytes reads = none) ∧
    (∀ (bytes : List Nat) (reads : List String) (p : Nat), pollPort reads = some p →
        startRemoteModel bytes reads = some ⟨p, hexEncodeToString bytes⟩ ∧
        ∃ pre d post, reads = pre ++ d :: post ∧ (∀ x ∈ pre, portOfContent x = none) ∧
          portOfContent d = some p) ∧
    (∀ d : String, (portOfContent d).isSome = true ↔ (specNonEmptyNumeric d = true ∧
        0 < digitsToNat (trimString d).data ∧
        (digitsToNat (trimString d).data : Int) ≤ maxInt64)) ∧
    (∀ bytes : List Nat, (hexEncodeToString bytes).length = 2 * bytes.length ∧
        ∀ c ∈ (hexEncodeToString bytes).data, c ∈ "0123456789abcdef".data) ∧
    resolveTimeoutSec 0 = 30 := by
  refine ⟨?_, ?_, ?_, ?_, by decide⟩
  · intro bytes reads h
    simp [startRemoteModel, h]
  · intro bytes reads p h
    refine ⟨by simp [startRemoteModel, h], ?_⟩
    induction reads with
    | nil => simp [pollPort] at h
    | cons d ds ih =>
      rcases hd : portOfContent d with _ | q
      · have h' : pollPort ds = some p := by simpa [pollPort, hd] using h
        rcases ih h' with ⟨pre, d', post, heq, hpre, hacc⟩
        exact ⟨d :: pre, d', post, by simp [heq], by
          intro x hx
          rcases List.mem_cons.mp hx with rfl | hx'
          · exact hd
          · exact hpre x hx', hacc⟩
      · have hq : q = p := by simpa [pollPort, hd] using h
        exact ⟨[], d, ds, rfl, by simp, by rw [hd, hq]⟩
  · intro d
    unfold portOfContent specNonEmptyNumeric
    constructor
    · intro h
      split_ifs at h with hc
      · obtain ⟨h1, h2, h3, h4⟩ := hc
        exact ⟨by simp [h1, h2], h4, h3⟩
      · simp at h
    · rintro ⟨h1, h2, h3⟩
      have h1' := of_decide_eq_true h1
      rw [if_pos ⟨h1'.1, h1'.2, h3, h2⟩]
      rfl
  · intro bytes
    constructor
    · show (hexEncodeToString bytes).data.length = 2 * bytes.length
      unfold hexEncodeToString
      rw [data_asString]
      induction bytes with
      | nil => rfl
      | cons b bs ih =>
        simp only [List.flatMap_cons, List.length_append, ih, List.length_cons,
          List.length_nil, List.length_cons]
        omega
    · intro c hc
      unfold hexEncodeToString at hc
      rw [data_asString] at hc
      rcases List.mem_flatMap.mp hc with ⟨b, _, hcb⟩
      have hmem : ∀ n : Nat, n < 16 → hexDigitChar n ∈ "0123456789abcdef".data := by
        intro n hn
        interval_cases n <;> decide
      rcases List.mem_cons.mp hcb with rfl | hcb'
      · exact hmem _ (Nat.mod_lt _ (by decide))
      · rcases List.mem_cons.mp hcb' with rfl | h'
        · exact hmem _ (Nat.mod_lt _ (by decide))
        · cases h'

/-- C8 witness: reads `["", "0", "45002"]` succeed at the third read with
port 45002 and a 16-character secret. -/
theorem claim8_bootstrap_witness :
    startRemoteModel [0xab, 0xcd, 1, 2, 3, 4, 5, 255] ["", "0", "45002"] =
      some ⟨45002, "abcd0102030405ff"⟩ ∧
    (hexEncodeToString [0xab, 0xcd, 1, 2, 3, 4, 5, 255]).length = 16 := by
  constructor
  · have h := (claim8_bootstrap.2.1 [0xab, 0xcd, 1, 2, 3, 4, 5, 255]
      ["", "0", "45002"] 45002 (by decide)).1
    rw [h]
    decide
  · have h := (claim8_bootstrap.2.2.2.1 [0xab, 0xcd, 1, 2, 3, 4, 5, 255]).1
    rw [h]
    decide

/-! # Claim C3 — backup stop during teardown -/

theorem backupStop_not_mem_close (st : OrcState) (keep : Bool) :
    CloneAction.backupStop ∉ closeActions st keep := by
  unfold closeActions
  split_ifs <;> simp

theorem backupStop_not_mem_p1 (e : RunEnv) :
    CloneAction.backupStop ∉ (stepWalAndRsyncd e).1 := by
  unfold stepWalAndRsyncd
  split_ifs <;> simp

theorem p1_ok_iff (e : RunEnv) : (stepWalAndRsyncd e).2.2 = true ↔ phase1Ok e := by
  unfold stepWalAndRsyncd phase1Ok
  cases htw : e.tempWALDirSet <;> cases hmk : e.mkdtempOk <;>
    cases hrs : e.recvStartOk <;> cases hco : e.connectOk <;>
    cases hwr : e.waitReplOk <;> cases htb : e.tbsQueryOk <;>
    cases hsd : e.sshDialOk <;> cases hsr : e.startRemoteOk <;>
    simp_all

theorem p2_trace (e : RunEnv) : (stepBackupStartM e).1 = [CloneAction.backupStart] := rfl

theorem p2_ok_iff (e : RunEnv) : (stepBackupStartM e).2 = true ↔ phase2Ok e := by
  unfold stepBackupStartM phase2Ok
  simp

theorem p3_trace (e : RunEnv) : (stepBackupStopM e).1 = [CloneAction.backupStop] := rfl

theorem p4_no_stop (e : RunEnv) : CloneAction.backupStop ∉ (stepWalFinalizeM e).1 := by
  unfold stepWalFinalizeM
  split_ifs <;> simp

/-- C3 counterexample: the backup is started, the initial pgdata rsync
fails, the run fails — and `pg_backup_stop` is never attempted, neither
by the remaining pipeline nor by `Close`, which only stops the receiver
and daemon, closes SSH and removes the temp dir. -/
theorem claim3_counterexample :
    CloneAction.backupStart ∈ (orchestratorRun { initialRsyncOk := false }).1 ∧
    (orchestratorRun { initialRsyncOk := false }).2 = false ∧
    CloneAction.backupStop ∉ (orchestratorRun { initialRsyncOk := false }).1 ∧
    (orchestratorRun { initialRsyncOk := false }).1 =
      [CloneAction.backupStart, CloneAction.recvStop, CloneAction.daemonStop,
       CloneAction.sshClose, CloneAction.removeTmp] := by
  refine ⟨by decide, by decide, by decide, by decide⟩

/-- C3 amended: the teardown (`Close`) never attempts `pg_backup_stop`
(it only releases the receiver, daemon, SSH client and temp dir);
`pg_backup_stop` is attempted exactly when phase 1 and the whole
backup-start/transfer phase succeed, i.e. as the regular pipeline step.
A failure after a successful `pg_backup_start` therefore leaves backup
mode to be resolved by the Postgres session ending, not by an explicit
stop. -/
theorem claim3_teardown :
    (∀ (st : OrcState) (keep : Bool), CloneAction.backupStop ∉ closeActions st keep) ∧
    ∀ e : RunEnv, CloneAction.backupStop ∈ (orchestratorRun e).1 ↔ phase1Ok e ∧ phase2Ok e := by
  refine ⟨backupStop_not_mem_close, ?_⟩
  intro e
  rcases hb : (stepWalAndRsyncd e).2.2 with _ | _
  · have h1 : ¬ phase1Ok e := by
      rw [← p1_ok_iff e, hb]
      simp
    simp only [orchestratorRun, hb]
    simp [backupStop_not_mem_p1 e, backupStop_not_mem_close, h1]
  · have h1 : phase1Ok e := (p1_ok_iff e).mp hb
    rcases hs2 : (stepBackupStartM e).2 with _ | _
    · have h2 : ¬ phase2Ok e := by
        rw [← p2_ok_iff e, hs2]
        simp
      simp only [orchestratorRun, hb, hs2]
      simp [backupStop_not_mem_p1 e, backupStop_not_mem_close, h1, h2, p2_trace]
    · have h2 : phase2Ok e := (p2_ok_iff e).mp hs2
      simp only [orchestratorRun, hb, hs2]
      split_ifs <;> simp_all [p2_trace, p3_trace]

/-- C3 witness: on the all-success environment `pg_backup_stop` is
attempted, and on the counterexample environment it is not. -/
theorem claim3_teardown_witness :
    CloneAction.backupStop ∈ (orchestratorRun {}).1 ∧
    CloneAction.backupStop ∉ closeActions { recvSet := true, daemonSet := true } false := by
  constructor
  · exact (claim3_teardown.2 {}).mpr (by constructor <;> exact ⟨by simp, by simp, by simp,
      by simp, by simp, by simp, by simp⟩)
  · exact claim3_teardown.1 { recvSet := true, daemonSet := true } false

/-! # Claim C4 — WAL finalize and the `.partial` rename -/

theorem trimPartialName_ne {s : String} (h : isPartialName s = true) :
    trimPartialName s ≠ s := by
  intro heq
  have hlen : 8 ≤ s.data.length := (of_decide_eq_true h).2
  have hdata : s.data.take (s.data.length - 8) = s.data := by
    have h1 : trimPartialName s = (s.data.take (s.data.length - 8)).asString := by
      unfold trimPartialName
      rw [if_pos h]
    rw [h1] at heq
    calc s.data.take (s.data.length - 8)
        = ((s.data.take (s.data.length - 8)).asString).data := (data_asString _).symm
      _ = s.data := by rw [heq]
  have := congrArg List.length hdata
  simp only [List.length_take] at this
  omega

/-- C4 counterexample: with the WAL temp dir holding only `A.partial`
and the replica WAL dir already holding `Z.partial`, the code renames the
pre-existing `Z.partial` (the greatest `.partial` in the destination
glob), not the greatest *moved* `.partial` as the claim states: the moved
`A.partial` survives unrenamed. -/
theorem claim4_counterexample :
    walFinalizeDir ["A.partial"] ["Z.partial"] = ["A.partial", "Z"] ∧
    specWalFinalizeDir ["A.partial"] ["Z.partial"] = ["Z.partial", "A"] ∧
    walFinalizeDir ["A.partial"] ["Z.partial"] ≠
      specWalFinalizeDir ["A.partial"] ["Z.partial"] ∧
    "A.partial" ∈ walFinalizeDir ["A.partial"] ["Z.partial"] := by
  refine ⟨by decide, by decide, by decide, by decide⟩

/-- C4 amended: after the receiver is stopped, every entry of the WAL
temp dir is moved into the replica WAL dir (rename with copy+remove
fallback; the fallback does not change the resulting contents), and among
the `.partial` files then present in the replica WAL dir — the moved ones
together with any pre-existing ones — exactly the lexicographically
greatest is renamed to strip its suffix; the claim's concrete example (an
empty replica WAL dir receiving `000000010000000000000003.partial` and
`000000010000000000000002`) yields `000000010000000000000002` and
`000000010000000000000003` with no `.partial` file. -/
theorem claim4_wal_finalize :
    walFinalizeDir ["000000010000000000000003.partial", "000000010000000000000002"] [] =
      ["000000010000000000000002", "000000010000000000000003"] ∧
    ∀ src dst : List String,
      ((movedEntries src dst).filter isPartialName = [] →
        walFinalizeDir src dst = movedEntries src dst) ∧
      (∀ n ∈ movedEntries src dst, isPartialName n = false →
        n ∈ walFinalizeDir src dst) ∧
      ∀ last, (((movedEntries src dst).filter isPartialName).insertionSort
          (fun a b => strLeB a b)).getLast? = some last →
        (isPartialName last = true ∧ last ∈ movedEntries src dst) ∧
        (∀ p ∈ movedEntries src dst, isPartialName p = true → strLeB p last = true) ∧
        trimPartialName last ∈ walFinalizeDir src dst ∧
        last ∉ walFinalizeDir src dst ∧
        (∀ p ∈ movedEntries src dst, isPartialName p = true → p ≠ last →
          p ∈ walFinalizeDir src dst) := by
  refine ⟨by decide, ?_⟩
  intro src dst
  refine ⟨?_, ?_, ?_⟩
  · intro h
    simp [walFinalizeDir, renameLastPartialEntry, h]
  · intro n hn hnp
    unfold walFinalizeDir renameLastPartialEntry
    cases hL : (((movedEntries src dst).filter isPartialName).insertionSort
        (fun a b => strLeB a b)).getLast? with
    | none => simpa using hn
    | some last =>
      have hlast_sorted : last ∈ ((movedEntries src dst).filter isPartialName).insertionSort
          (fun a b => strLeB a b) :=
        List.mem_of_mem_getLast? (by simp [hL])
      have hlast_filter : last ∈ (movedEntries src dst).filter isPartialName :=
        (List.perm_insertionSort _ _).mem_iff.mp hlast_sorted
      have hlastp : isPartialName last = true := (List.mem_filter.mp hlast_filter).2
      by_cases hne : n = trimPartialName last
      · subst hne
        simp
      · have hnl : n ≠ last := by
          intro heq
          rw [heq, hlastp] at hnp
          cases hnp
        refine List.mem_append_left _ ?_
        exact List.mem_filter.mpr ⟨hn, by simp [hnl, hne]⟩
  · intro last hL
    have hlast_sorted : last ∈ ((movedEntries src dst).filter isPartialName).insertionSort
        (fun a b => strLeB a b) :=
      List.mem_of_mem_getLast? (by simp [hL])
    have hlast_filter : last ∈ (movedEntries src dst).filter isPartialName :=
      (List.perm_insertionSort _ _).mem_iff.mp hlast_sorted
    have hlastp : isPartialName last = true := (List.mem_filter.mp hlast_filter).2
    have hlast_moved : last ∈ movedEntries src dst := (List.mem_filter.mp hlast_filter).1
    have hfinal : walFinalizeDir src dst =
        (movedEntries src dst).filter (fun n => n ≠ last ∧ n ≠ trimPartialName last) ++
          [trimPartialName last] := by
      unfold walFinalizeDir renameLastPartialEntry
      rw [hL]
    refine ⟨⟨hlastp, hlast_moved⟩, ?_, ?_, ?_, ?_⟩
    · intro p hp hpp
      have hp_sorted : p ∈ ((movedEntries src dst).filter isPartialName).insertionSort
          (fun a b => strLeB a b) :=
        (List.perm_insertionSort _ _).mem_iff.mpr (List.mem_filter.mpr ⟨hp, hpp⟩)
      have hsorted : List.Sorted (fun a b => strLeB a b = true)
          (((movedEntries src dst).filter isPartialName).insertionSort
            (fun a b => strLeB a b)) :=
        List.sorted_insertionSort _ _
      rcases pairwise_rel_getLast hsorted hp_sorted hL with rfl | hrel
      · exact strLeB_refl p
      · exact hrel
    · rw [hfinal]
      exact List.mem_append_right _ (by simp)
    · rw [hfinal]
      intro hmem
      rcases List.mem_append.mp hmem with hmem' | hmem'
      · have := (List.mem_filter.mp hmem').2
        simp at this
      · have : last = trimPartialName last := by simpa using hmem'
        exact trimPartialName_ne hlastp this.symm
    · intro p hp hpp hpl
      rw [hfinal]
      by_cases hpt : p = trimPartialName last
      · exact List.mem_append_right _ (by simp [hpt])
      · exact List.mem_append_left _ (List.mem_filter.mpr ⟨hp, by simp [hpl, hpt]⟩)

/-- C4 witness: temp dir `["b.partial", "a.partial", "w"]` into an empty
replica WAL dir — `b.partial` is the greatest `.partial`, it disappears,
`b` appears, and `a.partial` and `w` survive. -/
theorem claim4_wal_finalize_witness :
    "w" ∈ walFinalizeDir ["b.partial", "a.partial", "w"] [] ∧
    "b" ∈ walFinalizeDir ["b.partial", "a.partial", "w"] [] ∧
    "b.partial" ∉ walFinalizeDir ["b.partial", "a.partial", "w"] [] ∧
    "a.partial" ∈ walFinalizeDir ["b.partial", "a.partial", "w"] [] := by
  have h := (claim4_wal_finalize.2 ["b.partial", "a.partial", "w"] []).2.2 "b.partial"
    (by decide)
  refine ⟨?_, ?_, ?_, ?_⟩
  · exact (claim4_wal_finalize.2 ["b.partial", "a.partial", "w"] []).2.1 "w" (by decide)
      (by decide)
  · have hb := h.2.2.1
    simpa [trimPartialName] using hb
  · exact h.2.2.2.1
  · exact h.2.2.2.2 "a.partial" (by decide) (by decide) (by decide)

/-! # Claim C7 — file-list parser -/

theorem getElemD_ite (l : List String) (c : Prop) [Decidable c] (i j : Nat) :
    (l[if c then i else j]?).getD "" = if c then l[i]?.getD "" else l[j]?.getD "" := by
  split_ifs <;> rfl

theorem parseLineGo_eq_spec (line : String) : parseLineGo line = specLineRecord line := by
  unfold parseLineGo specLineRecord specIsRegularFileLine specLinkCountPrecedes
  simp [getElemD_ite]

theorem parseListLoop_eq (lines : List String) :
    parseListLoop lines = lines.filterMap specLineRecord := by
  induction lines with
  | nil => rfl
  | cons l ls ih =>
    unfold parseListLoop
    rw [parseLineGo_eq_spec l, List.filterMap_cons]
    cases h : specLineRecord l <;> simp [h, ih]

/-- C7: the parser emits exactly one record per line that begins with
`-`, has at least 5 whitespace-delimited fields and a parseable size
token (`fields[1]`, or `fields[2]` when a hard-link count precedes it —
detected as in `specLinkCountPrecedes` — with non-digits stripped); the
path is the last token; records keep input order; malformed lines are
skipped silently; the whole parse fails exactly when the underlying
reader fails. The repository's own test vectors are reproduced, together
with an ignored directory line and a skipped short line. -/
theorem claim7_parse_list :
    (∀ lines : List String, ParseList lines true = none) ∧
    (∀ lines : List String, ParseList lines false =
      some (lines.filterMap specLineRecord)) ∧
    ParseList ["-rw-r--r--        1 4096 2024/01/01 10:00:00 base/1/123",
               "-rw-r--r--        1 1,048 2024/01/01 10:00:00 base/1/456",
               "drwxr-xr-x        4,096 2024/01/01 10:00:00 somedir",
               "-rw-r--r-- 12"] false =
      some [⟨4096, "base/1/123"⟩, ⟨1048, "base/1/456"⟩] := by
  refine ⟨fun _ => rfl, fun lines => ?_, by decide⟩
  simp [ParseList, parseListLoop_eq]

/-! # Claim C1 — final stats aggregation of a module run -/

theorem stats_foldl_add (ws : List Stats) (a : Stats) :
    ws.foldl Stats.Add a =
      { NumFiles := a.NumFiles + (ws.map Stats.NumFiles).sum
        CreatedFiles := a.CreatedFiles + (ws.map Stats.CreatedFiles).sum
        CreatedReg := a.CreatedReg + (ws.map Stats.CreatedReg).sum
        CreatedDir := a.CreatedDir + (ws.map Stats.CreatedDir).sum
        DeletedFiles := a.DeletedFiles + (ws.map Stats.DeletedFiles).sum
        DeletedReg := a.DeletedReg + (ws.map Stats.DeletedReg).sum
        DeletedDir := a.DeletedDir + (ws.map Stats.DeletedDir).sum
        RegTransferred := a.RegTransferred + (ws.map Stats.RegTransferred).sum
        TotalFileSize := a.TotalFileSize + (ws.map Stats.TotalFileSize).sum
        TotalTransferredSize :=
          a.TotalTransferredSize + (ws.map Stats.TotalTransferredSize).sum
        LiteralData := a.LiteralData + (ws.map Stats.LiteralData).sum
        MatchedData := a.MatchedData + (ws.map Stats.MatchedData).sum
        RegFiles := a.RegFiles + (ws.map Stats.RegFiles).sum
        DirFiles := a.DirFiles + (ws.map Stats.DirFiles).sum
        LinkFiles := a.LinkFiles + (ws.map Stats.LinkFiles).sum
        FileListSize := a.FileListSize + (ws.map Stats.FileListSize).sum
        FileListGenSeconds :=
          (ws.map Stats.FileListGenSeconds).foldl max a.FileListGenSeconds
        BytesSent := a.BytesSent + (ws.map Stats.BytesSent).sum
        BytesReceived := a.BytesReceived + (ws.map Stats.BytesReceived).sum } := by
  induction ws generalizing a with
  | nil => simp
  | cons w ws ih =>
    rw [List.foldl_cons, ih]
    simp [Stats.Add, Stats.mk.injEq, add_assoc]

/-- C1 counterexample: in progress mode `none` (no bar, no plain
renderer) the ProgressState counter is never written, so the aggregate's
`bytes_received` stays the per-worker sum (1900) instead of being
overridden by the authoritative per-line total (2700) as the claim's
"regardless of progress mode" requires. -/
theorem claim1_counterexample :
    (RunParallelAggregate false "none" ["2700"]
      [{ NumFiles := 10, BytesSent := 950, BytesReceived := 900 },
       { NumFiles := 15, BytesSent := 1850, BytesReceived := 1000 }]).BytesReceived = 1900 ∧
    specAuthoritativeCounter ["2700"] = 2700 ∧ (1900 : Int) ≠ 2700 := by
  refine ⟨by decide, by decide, by decide⟩

/-- C1 amended: the final aggregate is the elementwise sum of the worker
stats with `filelist_gen_seconds` taking the maximum, and
`bytes_received` is overridden by the terminal progress counter only when
that counter is positive; the counter equals the authoritative per-line
total exactly in plain progress mode and stays 0 in bar and none modes.
The claim's concrete example holds in plain mode: worker stats
`{10,950,900}` and `{15,1850,1800}` with per-line total 2700 aggregate to
`numFiles=25, bytesSent=2800, bytesReceived=2700`. -/
theorem claim1_aggregation :
    (∀ (showBar : Bool) (mode : String) (lines : List String) (ws : List Stats),
      RunParallelAggregate showBar mode lines ws =
        { NumFiles := (ws.map Stats.NumFiles).sum
          CreatedFiles := (ws.map Stats.CreatedFiles).sum
          CreatedReg := (ws.map Stats.CreatedReg).sum
          CreatedDir := (ws.map Stats.CreatedDir).sum
          DeletedFiles := (ws.map Stats.DeletedFiles).sum
          DeletedReg := (ws.map Stats.DeletedReg).sum
          DeletedDir := (ws.map Stats.DeletedDir).sum
          RegTransferred := (ws.map Stats.RegTransferred).sum
          TotalFileSize := (ws.map Stats.TotalFileSize).sum
          TotalTransferredSize := (ws.map Stats.TotalTransferredSize).sum
          LiteralData := (ws.map Stats.LiteralData).sum
          MatchedData := (ws.map Stats.MatchedData).sum
          RegFiles := (ws.map Stats.RegFiles).sum
          DirFiles := (ws.map Stats.DirFiles).sum
          LinkFiles := (ws.map Stats.LinkFiles).sum
          FileListSize := (ws.map Stats.FileListSize).sum
          FileListGenSeconds := (ws.map Stats.FileListGenSeconds).foldl max 0
          BytesSent := (ws.map Stats.BytesSent).sum
          BytesReceived :=
            if 0 < progressBytesTerminal showBar mode lines
            then progressBytesTerminal showBar mode lines
            else (ws.map Stats.BytesReceived).sum }) ∧
    (∀ lines, progressBytesTerminal false "plain" lines =
      specAuthoritativeCounter lines) ∧
    (∀ (showBar : Bool) (mode : String) (lines : List String),
      ¬ (showBar = false ∧ mode = "plain") →
      progressBytesTerminal showBar mode lines = 0) ∧
    RunParallelAggregate false "plain" ["2700"]
      [{ NumFiles := 10, BytesSent := 950, BytesReceived := 900 },
       { NumFiles := 15, BytesSent := 1850, BytesReceived := 1800 }] =
      { NumFiles := 25, BytesSent := 2800, BytesReceived := 2700 } := by
  refine ⟨?_, ?_, ?_, by decide⟩
  · intro showBar mode lines ws
    unfold RunParallelAggregate finalAggregate
    rw [stats_foldl_add ws Stats.zero]
    split_ifs with h <;> simp [Stats.zero, Stats.mk.injEq]
  · intro lines
    rfl
  · intro showBar mode lines h
    unfold progressBytesTerminal
    rw [if_neg h]

/-- C1 witness: the general aggregation shape applied to the example, and
the counter vanishing in bar mode. -/
theorem claim1_aggregation_witness :
    (RunParallelAggregate false "plain" ["1", "2"]
      [{ BytesReceived := 7 }]).BytesReceived = 3 ∧
    progressBytesTerminal true "plain" ["5"] = 0 := by
  constructor
  · rw [claim1_aggregation.1 false "plain" ["1", "2"] [{ BytesReceived := 7 }]]
    decide
  · exact claim1_aggregation.2.2.1 true "plain" ["5"] (by simp)

/-! # Claim C2 — helper lemmas on `getD`, `set`, `sumIdx` -/

theorem getD_set_self {α : Type} (d : α) (l : List α) (i : Nat) (hi : i < l.length) (v : α) :
    (l.set i v).getD i d = v := by
  induction l generalizing i with
  | nil => simp at hi
  | cons a as ih =>
    cases i with
    | zero => rfl
    | succ n => exact ih n (by simpa using hi)

theorem getD_set_ne {α : Type} (d : α) (l : List α) (i j : Nat) (h : i ≠ j) (v : α) :
    (l.set i v).getD j d = l.getD j d := by
  induction l generalizing i j with
  | nil => rfl
  | cons a as ih =>
    cases i with
    | zero =>
      cases j with
      | zero => exact absurd rfl h
      | succ m => rfl
    | succ n =>
      cases j with
      | zero => rfl
      | succ m => exact ih n m (by omega)

theorem getD_replicate_zero (N j : Nat) : (List.replicate N (0 : Int)).getD j 0 = 0 := by
  rw [List.getD_eq_getElem?_getD, List.getElem?_replicate]
  split_ifs <;> rfl

theorem sumIdx_congr {l : List Int} {P Q : Nat → Bool} (h : ∀ i, P i = Q i) :
    sumIdx l P = sumIdx l Q := by
  induction l generalizing P Q with
  | nil => rfl
  | cons a as ih => simp only [sumIdx, h 0, ih (fun i => h (i + 1))]

theorem sumIdx_append (u v : List Int) (P : Nat → Bool) :
    sumIdx (u ++ v) P = sumIdx u P + sumIdx v (fun i => P (u.length + i)) := by
  induction u generalizing P with
  | nil => simp [sumIdx]
  | cons a us ih =>
    simp only [List.cons_append, sumIdx, List.length_cons, List.append_eq]
    rw [ih (fun i => P (i + 1)), add_assoc]
    congr 1
    congr 1
    apply sumIdx_congr
    intro i
    congr 1
    omega

theorem sumIdx_zero {l : List Int} {P : Nat → Bool} (h : ∀ i < l.length, P i = false) :
    sumIdx l P = 0 := by
  induction l generalizing P with
  | nil => rfl
  | cons a as ih =>
    simp only [sumIdx, h 0 (by simp)]
    simpa using ih fun i hi => h (i + 1) (by simpa using hi)

theorem sumIdx_eq_getD {l : List Int} {P : Nat → Bool} {j : Nat}
    (h : ∀ i < l.length, (P i = true ↔ i = j)) : sumIdx l P = l.getD j 0 := by
  induction l generalizing P j with
  | nil => rfl
  | cons a as ih =>
    cases j with
    | zero =>
      have h0 : P 0 = true := (h 0 (by simp)).mpr rfl
      have htail : sumIdx as (fun i => P (i + 1)) = 0 := by
        apply sumIdx_zero
        intro i hi
        by_contra hne
        have : i + 1 = 0 := (h (i + 1) (by simpa using hi)).mp (by
          cases hP : P (i + 1)
          · exact absurd hP hne
          · rfl)
        omega
      simp [sumIdx, h0, htail]
    | succ d =>
      have h0 : P 0 = false := by
        cases hP : P 0
        · rfl
        · have := (h 0 (by simp)).mp hP
          omega
      have : sumIdx as (fun i => P (i + 1)) = as.getD d 0 := by
        apply ih
        intro i hi
        constructor
        · intro hP
          have := (h (i + 1) (by simpa using hi)).mp hP
          omega
        · intro hid
          exact (h (i + 1) (by simpa using hi)).mpr (by omega)
      simp [sumIdx, h0, this]

/-! ## `minScan` loop invariant -/

theorem minScan_spec (totals : List Int) :
    ∀ (ts : List Int) (bv : Int) (best i : Nat),
      totals.drop i = ts → bv = totals.getD best 0 → best < totals.length →
      (∀ q < i, bv ≤ totals.getD q 0) →
      minScan ts bv best i < totals.length ∧
      ∀ q < totals.length, totals.getD (minScan ts bv best i) 0 ≤ totals.getD q 0 := by
  intro ts
  induction ts with
  | nil =>
    intro bv best i hdrop hbv hbl hq
    have hlen : totals.length ≤ i := by
      by_contra hlt
      push_neg at hlt
      have := List.drop_eq_getElem_cons hlt
      rw [hdrop] at this
      cases this
    refine ⟨hbl, ?_⟩
    intro q hql
    show totals.getD best 0 ≤ totals.getD q 0
    rw [← hbv]
    exact hq q (lt_of_lt_of_le hql hlen)
  | cons t ts' ih =>
    intro bv best i hdrop hbv hbl hq
    have hi : i < totals.length := by
      by_contra hge
      push_neg at hge
      rw [List.drop_eq_nil_of_le hge] at hdrop
      cases hdrop
    have hdrop' : totals.drop (i + 1) = ts' := by
      have := List.drop_eq_getElem_cons hi
      rw [hdrop] at this
      exact (List.cons.injEq _ _ _ _ ▸ this).2.symm
    have ht : t = totals.getD i 0 := by
      have := List.drop_eq_getElem_cons hi
      rw [hdrop] at this
      have := (List.cons.injEq _ _ _ _ ▸ this).1
      rw [List.getD_eq_getElem _ _ hi]
      exact this
    unfold minScan
    split_ifs with hlt
    · refine ih t i (i + 1) hdrop' ht hi ?_
      intro q hqi
      rcases Nat.lt_succ_iff_lt_or_eq.mp hqi with hq' | rfl
      · exact le_of_lt (lt_of_lt_of_le hlt (hq q hq'))
      · exact le_of_eq ht
    · refine ih bv best (i + 1) hdrop' hbv hbl ?_
      intro q hqi
      rcases Nat.lt_succ_iff_lt_or_eq.mp hqi with hq' | rfl
      · exact hq q hq'
      · rw [← ht]
        exact not_lt.mp hlt

theorem minWorkerIdx_spec (totals : List Int) (h : totals ≠ []) :
    minWorkerIdx totals < totals.length ∧
    ∀ q < totals.length, totals.getD (minWorkerIdx totals) 0 ≤ totals.getD q 0 := by
  cases totals with
  | nil => exact absurd rfl h
  | cons t ts =>
    unfold minWorkerIdx
    exact minScan_spec (t :: ts) ts t 0 1 rfl rfl (by simp) (by
      intro q hq
      interval_cases q
      rfl)

theorem minWorkerIdx_le_mem (totals : List Int) (h : totals ≠ []) :
    ∀ x ∈ totals, totals.getD (minWorkerIdx totals) 0 ≤ x := by
  intro x hx
  rcases List.mem_iff_getElem.mp hx with ⟨q, hq, rfl⟩
  rw [← List.getD_eq_getElem _ 0 hq]
  exact (minWorkerIdx_spec totals h).2 q hq

/-! ## Distributor fold invariants -/

theorem bucketTotal_append_single (b : List FileInfo) (f : FileInfo) :
    bucketTotal (b ++ [f]) = bucketTotal b + f.Size := by
  simp [bucketTotal]

theorem getD_map_bucketTotal (out : List (List FileInfo)) (i : Nat) (hi : i < out.length) :
    (out.map bucketTotal).getD i 0 = bucketTotal (out.getD i []) := by
  rw [List.getD_eq_getElem _ _ (by simpa using hi), List.getElem_map,
    List.getD_eq_getElem _ _ hi]

theorem flatten_set_append {α : Type} (out : List (List α)) (i : Nat) (hi : i < out.length)
    (f : α) :
    (out.set i (out.getD i [] ++ [f])).flatten.Perm (f :: out.flatten) := by
  induction out generalizing i with
  | nil => simp at hi
  | cons b bs ih =>
    cases i with
    | zero =>
      simp only [List.set_cons_zero, List.getD_cons_zero, List.flatten_cons]
      rw [List.append_assoc]
      exact List.perm_middle
    | succ n =>
      simp only [List.set_cons_succ, List.getD_cons_succ, List.flatten_cons]
      exact ((ih n (by simpa using hi)).append_left b).trans List.perm_middle

theorem flatten_replicate_nil {α : Type} (N : Nat) :
    (List.replicate N ([] : List α)).flatten = [] := by
  induction N with
  | zero => rfl
  | succ n ih => simp [List.replicate_succ, ih]

theorem distFold_inv (N : Nat) (hN : 0 < N) :
    ∀ (l : List FileInfo) (acc : DistAcc),
      acc.out.length = N → acc.totals.length = N → acc.cur < N →
      acc.totals = acc.out.map bucketTotal →
      (l.foldl (distStep N) acc).out.length = N ∧
      (l.foldl (distStep N) acc).totals.length = N ∧
      (l.foldl (distStep N) acc).cur < N ∧
      (l.foldl (distStep N) acc).totals = (l.foldl (distStep N) acc).out.map bucketTotal ∧
      (l.foldl (distStep N) acc).out.flatten.Perm (acc.out.flatten ++ l) := by
  intro l
  induction l with
  | nil =>
    intro acc h1 h2 h3 h4
    exact ⟨h1, h2, h3, h4, by simp⟩
  | cons f l' ih =>
    intro acc h1 h2 h3 h4
    have htne : acc.totals ≠ [] := by
      intro h
      rw [h] at h2
      simp at h2
      omega
    set i : Nat := if LARGE_THRESHOLD < f.Size then minWorkerIdx acc.totals else acc.cur
      with hidef
    have hiN : i < N := by
      rw [hidef]
      split_ifs
      · rw [← h2]
        exact (minWorkerIdx_spec acc.totals htne).1
      · exact h3
    have hstep : distStep N acc f =
        ⟨acc.out.set i (acc.out.getD i [] ++ [f]),
         acc.totals.set i (acc.totals.getD i 0 + f.Size),
         if LARGE_THRESHOLD < f.Size then acc.cur else (acc.cur + 1) % N⟩ := by
      rw [hidef]
      unfold distStep
      split_ifs <;> rfl
    have hout' : (distStep N acc f).out.length = N := by
      rw [hstep]
      simpa using h1
    have htot' : (distStep N acc f).totals.length = N := by
      rw [hstep]
      simpa using h2
    have hcur' : (distStep N acc f).cur < N := by
      rw [hstep]
      split_ifs
      · exact h3
      · exact Nat.mod_lt _ hN
    have hmap' : (distStep N acc f).totals = (distStep N acc f).out.map bucketTotal := by
      rw [hstep]
      show acc.totals.set i (acc.totals.getD i 0 + f.Size) =
        (acc.out.set i (acc.out.getD i [] ++ [f])).map bucketTotal
      rw [List.map_set, bucketTotal_append_single, h4,
        getD_map_bucketTotal acc.out i (by omega)]
    have hperm' : (distStep N acc f).out.flatten.Perm (f :: acc.out.flatten) := by
      rw [hstep]
      exact flatten_set_append acc.out i (by omega) f
    have hfold : (f :: l').foldl (distStep N) acc = l'.foldl (distStep N) (distStep N acc f) :=
      List.foldl_cons _ _
    rw [hfold]
    rcases ih (distStep N acc f) hout' htot' hcur' hmap' with ⟨g1, g2, g3, g4, g5⟩
    refine ⟨g1, g2, g3, g4, ?_⟩
    exact g5.trans ((hperm'.append_right l').trans List.perm_middle.symm)

/-! ## Round-robin totals and the sorted bound -/

theorem rr_fold_totals (N : Nat) (hN : 0 < N) :
    ∀ (l : List FileInfo) (acc : DistAcc),
      acc.totals.length = N → acc.cur < N →
      (∀ f ∈ l, ¬ LARGE_THRESHOLD < f.Size) →
      ∀ j, (l.foldl (distStep N) acc).totals.getD j 0 =
        acc.totals.getD j 0 +
          sumIdx (l.map FileInfo.Size) (fun i => (acc.cur + i) % N = j) := by
  intro l
  induction l with
  | nil =>
    intro acc _ _ _ j
    simp [sumIdx]
  | cons f l' ih =>
    intro acc h2 h3 hsmall j
    have hf : ¬ LARGE_THRESHOLD < f.Size := hsmall f (by simp)
    have hstep : distStep N acc f =
        ⟨acc.out.set acc.cur (acc.out.getD acc.cur [] ++ [f]),
         acc.totals.set acc.cur (acc.totals.getD acc.cur 0 + f.Size),
         (acc.cur + 1) % N⟩ := by
      unfold distStep
      rw [if_neg hf]
    rw [List.foldl_cons, ih (distStep N acc f)
      (by rw [hstep]; simpa using h2)
      (by rw [hstep]; exact Nat.mod_lt _ hN)
      (fun g hg => hsmall g (by simp [hg])) j]
    rw [hstep]
    show (acc.totals.set acc.cur (acc.totals.getD acc.cur 0 + f.Size)).getD j 0 +
        sumIdx (l'.map FileInfo.Size) (fun i => ((acc.cur + 1) % N + i) % N = j) =
      acc.totals.getD j 0 +
        sumIdx ((f :: l').map FileInfo.Size) (fun i => (acc.cur + i) % N = j)
    have hpred : ∀ i, (decide (((acc.cur + 1) % N + i) % N = j)) =
        (decide ((acc.cur + (i + 1)) % N = j)) := by
      intro i
      have : ((acc.cur + 1) % N + i) % N = (acc.cur + (i + 1)) % N := by
        rw [Nat.mod_add_mod]
        congr 1
        omega
      rw [this]
    rw [sumIdx_congr hpred]
    simp only [List.map_cons, sumIdx]
    by_cases hj : acc.cur = j
    · subst hj
      rw [getD_set_self 0 acc.totals acc.cur (by omega) _]
      simp [Nat.mod_eq_of_lt h3]
      ring
    · rw [getD_set_ne 0 acc.totals acc.cur j hj _]
      simp [Nat.mod_eq_of_lt h3, hj]

theorem sorted_bound (n : Nat) :
    ∀ (l : List Int), l.length ≤ n → ∀ N : Nat, 0 < N →
      (∀ x ∈ l, 0 ≤ x) → List.Sorted (· ≥ ·) l → ∀ j k, j < N → k < N →
      sumIdx l (fun i => i % N = j) - sumIdx l (fun i => i % N = k) ≤ l.headD 0 := by
  induction n with
  | zero =>
    intro l hl N hN hnn hs j k hj hk
    have : l = [] := List.length_eq_zero.mp (by omega)
    subst this
    simp [sumIdx]
  | succ n ihn =>
    intro l hl N hN hnn hs j k hj hk
    by_cases hlen : l.length ≤ N
    · have hTj : sumIdx l (fun i => i % N = j) = l.getD j 0 :=
        sumIdx_eq_getD (fun i hi => by
          rw [Nat.mod_eq_of_lt (lt_of_lt_of_le hi hlen)]
          simp)
      have hTk : sumIdx l (fun i => i % N = k) = l.getD k 0 :=
        sumIdx_eq_getD (fun i hi => by
          rw [Nat.mod_eq_of_lt (lt_of_lt_of_le hi hlen)]
          simp)
      rw [hTj, hTk]
      cases l with
      | nil => simp
      | cons a as =>
        have hhead : (a :: as).headD 0 = a := rfl
        rw [hhead]
        have hge : (a :: as).getD j 0 ≤ a := by
          by_cases hjl : j < (a :: as).length
          · rw [List.getD_eq_getElem _ _ hjl]
            have := List.Sorted.rel_get_of_le hs
              (a := ⟨0, by simp⟩) (b := ⟨j, hjl⟩) (by simp)
            simpa using this
          · rw [List.getD_eq_default _ _ (by omega)]
            exact hnn a (by simp)
        have hk0 : 0 ≤ (a :: as).getD k 0 := by
          by_cases hkl : k < (a :: as).length
          · rw [List.getD_eq_getElem _ _ hkl]
            exact hnn _ (List.getElem_mem _)
          · rw [List.getD_eq_default _ _ (by omega)]
        omega
    · push_neg at hlen
      have hsplit : l = l.take N ++ l.drop N := (List.take_append_drop N l).symm
      have hlentake : (l.take N).length = N := by
        rw [List.length_take]
        omega
      have hTsplit : ∀ m, m < N →
          sumIdx l (fun i => i % N = m) = (l.take N).getD m 0 +
            sumIdx (l.drop N) (fun i => i % N = m) := by
        intro m hm
        conv_lhs => rw [hsplit]
        rw [sumIdx_append]
        congr 1
        · exact sumIdx_eq_getD (fun i hi => by
            rw [hlentake] at hi
            rw [Nat.mod_eq_of_lt hi]
            simp)
        · apply sumIdx_congr
          intro i
          have h1 : (List.take N l).length + i = i + N := by
            rw [hlentake]
            omega
          rw [h1, Nat.add_mod_right]
      have hdroplen : (l.drop N).length ≤ n := by
        rw [List.length_drop]
        omega
      have hdropnn : ∀ x ∈ l.drop N, 0 ≤ x := fun x hx =>
        hnn x (List.mem_of_mem_drop hx)
      have hdrops : List.Sorted (· ≥ ·) (l.drop N) :=
        hs.sublist (List.drop_sublist N l)
      have ihdrop := ihn (l.drop N) hdroplen N hN hdropnn hdrops j k hj hk
      rw [hTsplit j hj, hTsplit k hk]
      have hheaddrop : (l.drop N).headD 0 ≤ (l.take N).getD k 0 := by
        have hNlt : N < l.length := hlen
        have hdropne : l.drop N = l[N] :: l.drop (N + 1) := List.drop_eq_getElem_cons hNlt
        rw [hdropne]
        show l[N] ≤ (l.take N).getD k 0
        rw [List.getD_eq_getElem _ _ (by rw [hlentake]; exact hk), List.getElem_take]
        exact List.Sorted.rel_get_of_le hs (a := ⟨k, by omega⟩) (b := ⟨N, hNlt⟩) (by
          show k ≤ N
          omega)
      have hheadj : (l.take N).getD j 0 ≤ l.headD 0 := by
        rw [List.getD_eq_getElem _ _ (by rw [hlentake]; exact hj), List.getElem_take]
        have h0 : 0 < l.length := by omega
        have := List.Sorted.rel_get_of_le hs (a := ⟨0, h0⟩) (b := ⟨j, by omega⟩) (by
          show 0 ≤ j
          omega)
        cases l with
        | nil => simp at h0
        | cons a as => simpa using this
      omega

/-! ## Best-fit bound -/

theorem bf_fold_bound (N : Nat) (hN : 0 < N) (B : Int) :
    ∀ (l : List FileInfo) (acc : DistAcc),
      acc.totals.length = N →
      (∀ x ∈ acc.totals, 0 ≤ x) →
      (∀ x ∈ acc.totals, ∀ y ∈ acc.totals, x - y ≤ B) →
      (∀ f ∈ l, LARGE_THRESHOLD < f.Size ∧ f.Size ≤ B) →
      (∀ x ∈ (l.foldl (distStep N) acc).totals, 0 ≤ x) ∧
      (∀ x ∈ (l.foldl (distStep N) acc).totals,
        ∀ y ∈ (l.foldl (distStep N) acc).totals, x - y ≤ B) := by
  intro l
  induction l with
  | nil =>
    intro acc _ hnn hbd _
    exact ⟨hnn, hbd⟩
  | cons f l' ih =>
    intro acc h2 hnn hbd hlarge
    rcases hlarge f (by simp) with ⟨hft, hfB⟩
    have htne : acc.totals ≠ [] := by
      intro h
      rw [h] at h2
      simp at h2
      omega
    have hstep : distStep N acc f =
        ⟨acc.out.set (minWorkerIdx acc.totals)
          (acc.out.getD (minWorkerIdx acc.totals) [] ++ [f]),
         acc.totals.set (minWorkerIdx acc.totals)
          (acc.totals.getD (minWorkerIdx acc.totals) 0 + f.Size),
         acc.cur⟩ := by
      unfold distStep
      rw [if_pos hft]
    set m := minWorkerIdx acc.totals with hm
    have hmlt : m < acc.totals.length := (minWorkerIdx_spec acc.totals htne).1
    have hmin : ∀ x ∈ acc.totals, acc.totals.getD m 0 ≤ x :=
      minWorkerIdx_le_mem acc.totals htne
    have hmmem : acc.totals.getD m 0 ∈ acc.totals := by
      rw [List.getD_eq_getElem _ _ hmlt]
      exact List.getElem_mem _
    have hfpos : 0 < f.Size := lt_trans (by decide) hft
    have hmem' : ∀ x ∈ (distStep N acc f).totals,
        x ∈ acc.totals ∨ x = acc.totals.getD m 0 + f.Size := by
      intro x hx
      rw [hstep] at hx
      exact List.mem_or_eq_of_mem_set hx
    have hnn' : ∀ x ∈ (distStep N acc f).totals, 0 ≤ x := by
      intro x hx
      rcases hmem' x hx with hx' | rfl
      · exact hnn x hx'
      · have := hnn _ hmmem
        omega
    have hbd' : ∀ x ∈ (distStep N acc f).totals, ∀ y ∈ (distStep N acc f).totals,
        x - y ≤ B := by
      intro x hx y hy
      rcases hmem' x hx with hx' | rfl <;> rcases hmem' y hy with hy' | rfl
      · exact hbd x hx' y hy'
      · have h1 : x - acc.totals.getD m 0 ≤ B := hbd x hx' _ hmmem
        omega
      · have h1 : acc.totals.getD m 0 ≤ y := hmin y hy'
        omega
      · omega
    have h2' : (distStep N acc f).totals.length = N := by
      rw [hstep]
      simpa using h2
    rw [List.foldl_cons]
    exact ih (distStep N acc f) h2' hnn' hbd' (fun g hg => hlarge g (by simp [hg]))

/-! ## `maxSize` facts -/

theorem maxSize_nonneg (files : List FileInfo) : 0 ≤ maxSize files := by
  induction files with
  | nil => simp [maxSize]
  | cons f fs ih =>
    simp only [maxSize, List.foldr_cons]
    exact le_trans ih (le_max_right _ _)

theorem le_maxSize {f : FileInfo} {files : List FileInfo} (h : f ∈ files) :
    f.Size ≤ maxSize files := by
  induction files with
  | nil => cases h
  | cons g fs ih =>
    rcases List.mem_cons.mp h with rfl | h'
    · simp only [maxSize, List.foldr_cons]
      exact le_max_left _ _
    · simp only [maxSize, List.foldr_cons]
      exact le_trans (ih h') (le_max_right _ _)

/-! # Claim C2 — the distributor -/

/-- C2 counterexample: with one file just over the 1 GiB threshold and
three files of exactly 1 GiB on 2 workers, the threshold file goes to
worker 0 by best fit and the round-robin cursor then gives worker 0 two
of the three remaining files, so the byte-total gap is `2^31 + 1`,
exceeding the largest file size `2^30 + 1` even though `N = 2 ≤ 4 = |L|`
and all sizes are non-negative. -/
theorem claim2_counterexample :
    (Distribute [⟨2 ^ 30 + 1, "a"⟩, ⟨2 ^ 30, "b"⟩, ⟨2 ^ 30, "c"⟩, ⟨2 ^ 30, "d"⟩] 2).map
        bucketTotal = [3 * 2 ^ 30 + 1, 2 ^ 30] ∧
    maxSize [⟨2 ^ 30 + 1, "a"⟩, ⟨2 ^ 30, "b"⟩, ⟨2 ^ 30, "c"⟩, ⟨2 ^ 30, "d"⟩] = 2 ^ 30 + 1 ∧
    ¬ ((3 * 2 ^ 30 + 1 : Int) - 2 ^ 30 ≤ 2 ^ 30 + 1) := by
  refine ⟨by decide, by decide, by decide⟩

/-- C2 amended: for every file list and worker count `N ≥ 1` the
distributor returns exactly `N` buckets whose concatenation is a
permutation (multiset equality) of the input; and when `N ≤ |L|`, sizes
are non-negative and the list is homogeneous with respect to the 1 GiB
threshold (all records above it, placed best-fit, or none above it,
placed round-robin), the gap between any two bucket byte totals is at
most the largest file size. (On mixed lists the bound can fail, see the
counterexample.) -/
theorem claim2_distribute (files : List FileInfo) (w : Int) (hw : 1 ≤ w) :
    (Distribute files w).length = w.toNat ∧
    (Distribute files w).flatten.Perm files ∧
    ((∀ f ∈ files, 0 ≤ f.Size) → w.toNat ≤ files.length →
      ((∀ f ∈ files, ¬ LARGE_THRESHOLD < f.Size) ∨
        (∀ f ∈ files, LARGE_THRESHOLD < f.Size)) →
      ∀ b1 ∈ Distribute files w, ∀ b2 ∈ Distribute files w,
        bucketTotal b1 - bucketTotal b2 ≤ maxSize files) := by
  have hw0 : ¬ w ≤ 0 := by omega
  set N := w.toNat with hNdef
  have hN : 0 < N := by omega
  by_cases hemp : files.isEmpty
  · have hfe : files = [] := List.isEmpty_iff.mp hemp
    have hD : Distribute files w = List.replicate N [] := by
      simp [Distribute, hw0, hemp]
    refine ⟨by rw [hD]; simp, ?_, ?_⟩
    · rw [hD, flatten_replicate_nil, hfe]
    · intro _ hle _ _ _ _ _
      rw [hfe] at hle
      simp at hle
      omega
  · have hD : Distribute files w =
        ((sortDesc files).foldl (distStep N)
          ⟨List.replicate N [], List.replicate N 0, 0⟩).out := by
      simp [Distribute, hw0, hemp]
    have hmap0 : (List.replicate N (0 : Int)) =
        (List.replicate N ([] : List FileInfo)).map bucketTotal := by
      rw [List.map_replicate]
      rfl
    have inv := distFold_inv N hN (sortDesc files)
      ⟨List.replicate N [], List.replicate N 0, 0⟩
      (by simp) (by simp) hN hmap0
    have hsortperm : (sortDesc files).Perm files := List.perm_insertionSort _ _
    refine ⟨by rw [hD]; exact inv.1, ?_, ?_⟩
    · rw [hD]
      refine inv.2.2.2.2.trans ?_
      rw [flatten_replicate_nil]
      exact hsortperm
    · intro hnn hle hcase b1 hb1 b2 hb2
      rw [hD] at hb1 hb2
      set fold := (sortDesc files).foldl (distStep N)
        (⟨List.replicate N [], List.replicate N 0, 0⟩ : DistAcc) with hfold
      rcases List.mem_iff_getElem.mp hb1 with ⟨j, hj, hj_eq⟩
      rcases List.mem_iff_getElem.mp hb2 with ⟨k, hk, hk_eq⟩
      have hjN : j < N := by rw [← inv.1]; exact hj
      have hkN : k < N := by rw [← inv.1]; exact hk
      have hb1T : bucketTotal b1 = fold.totals.getD j 0 := by
        rw [inv.2.2.2.1, getD_map_bucketTotal _ _ hj,
          List.getD_eq_getElem _ _ hj, hj_eq]
      have hb2T : bucketTotal b2 = fold.totals.getD k 0 := by
        rw [inv.2.2.2.1, getD_map_bucketTotal _ _ hk,
          List.getD_eq_getElem _ _ hk, hk_eq]
      rw [hb1T, hb2T]
      rcases hcase with hsmallc | hlargec
      · have hsmall' : ∀ f ∈ sortDesc files, ¬ LARGE_THRESHOLD < f.Size :=
          fun f hf => hsmallc f (hsortperm.mem_iff.mp hf)
        have hT : ∀ m, fold.totals.getD m 0 =
            sumIdx ((sortDesc files).map FileInfo.Size) (fun i => i % N = m) := by
          intro m
          rw [hfold, rr_fold_totals N hN (sortDesc files) _ (by simp) hN hsmall' m]
          show (List.replicate N (0 : Int)).getD m 0 + _ = _
          rw [getD_replicate_zero, zero_add]
          apply sumIdx_congr
          intro i
          rw [Nat.zero_add]
        rw [hT j, hT k]
        have hnnmap : ∀ x ∈ (sortDesc files).map FileInfo.Size, 0 ≤ x := by
          intro x hx
          rcases List.mem_map.mp hx with ⟨f, hf, rfl⟩
          exact hnn f (hsortperm.mem_iff.mp hf)
        have hsortmap : List.Sorted (· ≥ ·) ((sortDesc files).map FileInfo.Size) := by
          rw [List.Sorted, List.pairwise_map]
          exact List.sorted_insertionSort sizeGE files
        have hbd := sorted_bound ((sortDesc files).map FileInfo.Size).length
          ((sortDesc files).map FileInfo.Size) le_rfl N hN hnnmap hsortmap j k hjN hkN
        refine le_trans hbd ?_
        cases hsd : sortDesc files with
        | nil => simp [maxSize_nonneg]
        | cons g gs =>
          show (FileInfo.Size g) ≤ maxSize files
          refine le_maxSize (hsortperm.mem_iff.mp ?_)
          rw [hsd]
          simp
      · have hlarge' : ∀ f ∈ sortDesc files,
            LARGE_THRESHOLD < f.Size ∧ f.Size ≤ maxSize files := fun f hf =>
          ⟨hlargec f (hsortperm.mem_iff.mp hf),
           le_maxSize (hsortperm.mem_iff.mp hf)⟩
        have hbf := bf_fold_bound N hN (maxSize files) (sortDesc files)
          ⟨List.replicate N [], List.replicate N 0, 0⟩
          (by simp)
          (by
            intro x hx
            rw [List.eq_of_mem_replicate hx])
          (by
            intro x hx y hy
            rw [List.eq_of_mem_replicate hx, List.eq_of_mem_replicate hy]
            simpa using maxSize_nonneg files)
          hlarge'
        have hjmem : fold.totals.getD j 0 ∈ fold.totals := by
          rw [List.getD_eq_getElem _ _ (by rw [inv.2.1]; exact hjN)]
          exact List.getElem_mem _
        have hkmem : fold.totals.getD k 0 ∈ fold.totals := by
          rw [List.getD_eq_getElem _ _ (by rw [inv.2.1]; exact hkN)]
          exact List.getElem_mem _
        exact hbf.2 _ hjmem _ hkmem

/-- C2 witness: the spec's balance scenario — sizes 100..1000, 3 workers:
three buckets, and the gap between bucket 0 and bucket 2 is within the
largest size 1000. -/
theorem claim2_distribute_witness :
    (Distribute [⟨100, "f1"⟩, ⟨200, "f2"⟩, ⟨300, "f3"⟩, ⟨400, "f4"⟩, ⟨500, "f5"⟩,
        ⟨600, "f6"⟩, ⟨700, "f7"⟩, ⟨800, "f8"⟩, ⟨900, "f9"⟩, ⟨1000, "f10"⟩] 3).length = 3 ∧
    bucketTotal ((Distribute [⟨100, "f1"⟩, ⟨200, "f2"⟩, ⟨300, "f3"⟩, ⟨400, "f4"⟩,
        ⟨500, "f5"⟩, ⟨600, "f6"⟩, ⟨700, "f7"⟩, ⟨800, "f8"⟩, ⟨900, "f9"⟩,
        ⟨1000, "f10"⟩] 3).getD 0 []) -
      bucketTotal ((Distribute [⟨100, "f1"⟩, ⟨200, "f2"⟩, ⟨300, "f3"⟩, ⟨400, "f4"⟩,
        ⟨500, "f5"⟩, ⟨600, "f6"⟩, ⟨700, "f7"⟩, ⟨800, "f8"⟩, ⟨900, "f9"⟩,
        ⟨1000, "f10"⟩] 3).getD 2 []) ≤
      maxSize [⟨100, "f1"⟩, ⟨200, "f2"⟩, ⟨300, "f3"⟩, ⟨400, "f4"⟩, ⟨500, "f5"⟩,
        ⟨600, "f6"⟩, ⟨700, "f7"⟩, ⟨800, "f8"⟩, ⟨900, "f9"⟩, ⟨1000, "f10"⟩] := by
  have h := claim2_distribute [⟨100, "f1"⟩, ⟨200, "f2"⟩, ⟨300, "f3"⟩, ⟨400, "f4"⟩,
    ⟨500, "f5"⟩, ⟨600, "f6"⟩, ⟨700, "f7"⟩, ⟨800, "f8"⟩, ⟨900, "f9"⟩, ⟨1000, "f10"⟩]
    3 (by decide)
  constructor
  · have h1 := h.1
    simpa using h1
  · exact h.2.2 (by decide) (by decide) (Or.inl (by decide))
      _ (by decide) _ (by decide)
